import Mathlib

/-!
Verification of the pmemkv core against its specification.

The C dispatch layer (`libpmemkv.cc`) is embedded directly from the source.
The sorted engine itself (stree) is not part of the provided sources — only
its tests are — so the store, its operations, and the comparator binding are
modelled from the specification (§3, §4.2, §4.3 of the spec), as marked on
each such definition.
-/

/-- Keys and values are arbitrary byte strings; a byte is modelled as `Nat`
(the source uses unsigned chars; values stay below 256 but no claim here
depends on that bound). -/
abbrev Key := List Nat

/-- A value is a byte string, like a key. -/
abbrev Value := List Nat

/-- Modelled from the spec: the default comparator is lexicographic
(unsigned) byte comparison (§4.2).  Three-way compare on byte strings. -/
def cmpKey : Key → Key → Ordering
  | [], [] => Ordering.eq
  | [], _ :: _ => Ordering.lt
  | _ :: _, [] => Ordering.gt
  | a :: as, b :: bs =>
    if a < b then Ordering.lt
    else if b < a then Ordering.gt
    else cmpKey as bs

/-- The fixed name of the default comparator (§4.2 of the spec). -/
def pmemkv_binary_comparator_name : String := "__pmemkv_binary_comparator"

theorem cmpKey_refl (a : Key) : cmpKey a a = Ordering.eq := by
  induction a with
  | nil => rfl
  | cons x xs ih => simp [cmpKey, ih]

theorem cmpKey_eq_iff {a b : Key} : cmpKey a b = Ordering.eq ↔ a = b := by
  induction a generalizing b with
  | nil => cases b <;> simp [cmpKey]
  | cons x xs ih =>
    cases b with
    | nil => simp [cmpKey]
    | cons y ys =>
      by_cases hxy : x < y
      · simp [cmpKey, hxy]
        intro h
        omega
      · by_cases hyx : y < x
        · simp [cmpKey, hxy, hyx]
          intro h
          omega
        · have hxy2 : x = y := by omega
          subst hxy2
          simp [cmpKey, ih]

theorem cmpKey_lt_trans {a b c : Key} (h1 : cmpKey a b = Ordering.lt)
    (h2 : cmpKey b c = Ordering.lt) : cmpKey a c = Ordering.lt := by
  induction a generalizing b c with
  | nil =>
    cases b with
    | nil => simp [cmpKey] at h1
    | cons y ys =>
      cases c with
      | nil => simp [cmpKey] at h2
      | cons z zs => simp [cmpKey]
  | cons x xs ih =>
    cases b with
    | nil => simp [cmpKey] at h1
    | cons y ys =>
      cases c with
      | nil => simp [cmpKey] at h2
      | cons z zs =>
        by_cases hxy : x < y
        · by_cases hyz : y < z
          · have hxz : x < z := Nat.lt_trans hxy hyz
            simp [cmpKey, hxz]
          · by_cases hzy : z < y
            · simp [cmpKey, hyz, hzy] at h2
            · have hyz2 : y = z := by omega
              subst hyz2
              simp [cmpKey, hxy]
        · by_cases hyx : y < x
          · simp [cmpKey, hxy, hyx] at h1
          · have hxy2 : x = y := by omega
            subst hxy2
            simp only [cmpKey, lt_irrefl, if_false] at h1
            by_cases hyz : x < z
            · simp [cmpKey, hyz]
            · by_cases hzy : z < x
              · simp [cmpKey, hyz, hzy] at h2
              · have hyz2 : x = z := by omega
                subst hyz2
                simp only [cmpKey, lt_irrefl, if_false] at h2 ⊢
                exact ih h1 h2

theorem cmpKey_swap (a b : Key) : (cmpKey a b).swap = cmpKey b a := by
  induction a generalizing b with
  | nil => cases b <;> rfl
  | cons x xs ih =>
    cases b with
    | nil => rfl
    | cons y ys =>
      by_cases hxy : x < y
      · have hyx : ¬y < x := by omega
        simp [cmpKey, hxy, hyx, Ordering.swap]
      · by_cases hyx : y < x
        · simp [cmpKey, hxy, hyx, Ordering.swap]
        · simp [cmpKey, hxy, hyx, ih]

theorem cmpKey_gt_iff {a b : Key} : cmpKey a b = Ordering.gt ↔ cmpKey b a = Ordering.lt := by
  rw [← cmpKey_swap b a]
  cases cmpKey b a <;> simp [Ordering.swap]

theorem cmpKey_lt_ne {a b : Key} (h : cmpKey a b = Ordering.lt) : a ≠ b := by
  intro he
  subst he
  rw [cmpKey_refl a] at h
  exact absurd h (by simp)

theorem cmpKey_lt_irrefl (a : Key) : cmpKey a a ≠ Ordering.lt := by
  rw [cmpKey_refl a]
  simp

theorem cmpKey_lt_iff_lex {a b : Key} :
    cmpKey a b = Ordering.lt ↔ List.Lex (fun x y : Nat => x < y) a b := by
  induction a generalizing b with
  | nil =>
    cases b with
    | nil =>
      simp only [cmpKey]
      constructor
      · intro h
        exact absurd h (by simp)
      · intro h
        cases h
    | cons y ys =>
      simp only [cmpKey]
      constructor
      · intro _
        exact List.Lex.nil
      · intro _
        trivial
  | cons x xs ih =>
    cases b with
    | nil =>
      simp only [cmpKey]
      constructor
      · intro h
        exact absurd h (by simp)
      · intro h
        cases h
    | cons y ys =>
      by_cases hxy : x < y
      · simp only [cmpKey, hxy, if_true]
        constructor
        · intro _
          exact List.Lex.rel hxy
        · intro _
          trivial
      · by_cases hyx : y < x
        · simp only [cmpKey, hxy, hyx, if_true, if_false]
          constructor
          · intro h
            exact absurd h (by simp)
          · intro h
            cases h with
            | cons h2 => omega
            | rel h2 => omega
        · have hxy2 : x = y := by omega
          subst hxy2
          simp only [cmpKey, lt_irrefl, if_false]
          rw [ih]
          constructor
          · intro h
            exact List.Lex.cons h
          · intro h
            cases h with
            | cons h2 => exact h2
            | rel h2 => omega

/-- Status codes of the public contract (§6 of the spec), with their stable
ordinal values given by `Status.toInt` below. -/
inductive Status where
  | OK
  | UNKNOWN_ERROR
  | NOT_FOUND
  | NOT_SUPPORTED
  | INVALID_ARGUMENT
  | CONFIG_PARSING_ERROR
  | CONFIG_TYPE_ERROR
  | STOPPED_BY_CB
  | OUT_OF_MEMORY
  | WRONG_ENGINE_NAME
  | TRANSACTION_SCOPE_ERROR
  | COMPARATOR_MISMATCH
  | FAILED
deriving DecidableEq, Repr

/-- The stable ordinal value of each status code (§6 of the spec; matches
the `PMEMKV_STATUS_*` constants of the C header). -/
def Status.toInt : Status → Int
  | .OK => 0
  | .UNKNOWN_ERROR => 1
  | .NOT_FOUND => 2
  | .NOT_SUPPORTED => 3
  | .INVALID_ARGUMENT => 4
  | .CONFIG_PARSING_ERROR => 5
  | .CONFIG_TYPE_ERROR => 6
  | .STOPPED_BY_CB => 7
  | .OUT_OF_MEMORY => 8
  | .WRONG_ENGINE_NAME => 9
  | .TRANSACTION_SCOPE_ERROR => 10
  | .COMPARATOR_MISMATCH => 11
  | .FAILED => 12

/-- Modelled from the spec: the sentinel range endpoints `MIN_KEY` and
`MAX_KEY` are "distinct range-endpoint variants \x7bmin, max, key(bytes)\x7d
rather than reserved byte strings" (§9); `MIN_KEY` is below all keys and
`MAX_KEY` above all keys (§4.3). -/
inductive Bound where
  | min
  | key (k : Key)
  | max
deriving DecidableEq, Repr

/-- Modelled from the spec: whether a range endpoint is strictly below a
stored key (§4.3, sentinel semantics). -/
def boundLtKey : Bound → Key → Bool
  | Bound.min, _ => true
  | Bound.max, _ => false
  | Bound.key b, x => cmpKey b x = Ordering.lt

/-- Modelled from the spec: whether a stored key is strictly below a range
endpoint (§4.3, sentinel semantics). -/
def keyLtBound : Key → Bound → Bool
  | _, Bound.min => false
  | _, Bound.max => true
  | x, Bound.key b => cmpKey x b = Ordering.lt

/-- Modelled from the spec: the sorted engine's logical content — entries
in comparator order reachable through the leaf chain (§3).  An association
list; the invariant `StoreInv` below states it is strictly sorted. -/
abbrev Store := List (Key × Value)

/-- Modelled from the spec: "Leaves are totally ordered by the comparator;
the leaf chain visits them in that order" (§3 Invariants) — the entry list
is strictly increasing under the active comparator. -/
def StoreInv (s : Store) : Prop :=
  List.Pairwise (fun e1 e2 : Key × Value => cmpKey e1.1 e2.1 = Ordering.lt) s

instance (s : Store) : Decidable (StoreInv s) := by
  unfold StoreInv
  infer_instance

/-- The keys of a store, in chain order. -/
def keysOf (s : Store) : List Key := s.map Prod.fst

/-- Modelled from the spec: lookup descends to the leaf and searches for
an equal key, returning the entry's value or not-found (§4.3 Lookup). -/
def getOp : Store → Key → Option Value
  | [], _ => none
  | (k', v') :: rest, k =>
    if cmpKey k k' = Ordering.eq then some v' else getOp rest k

/-- Modelled from the spec: `exists` returns `OK` when the key is present
and `NOT_FOUND` otherwise (§4.5). -/
def existsKey (s : Store) (k : Key) : Status :=
  match getOp s k with
  | some _ => Status.OK
  | none => Status.NOT_FOUND

/-- Modelled from the spec: insert places the entry at its sorted position;
an insert that finds an existing key replaces the old entry (§4.3 Insert,
Update). -/
def insertSorted : Store → Key → Value → Store
  | [], k, v => [(k, v)]
  | (k', v') :: rest, k, v =>
    match cmpKey k k' with
    | Ordering.lt => (k, v) :: (k', v') :: rest
    | Ordering.eq => (k, v) :: rest
    | Ordering.gt => (k', v') :: insertSorted rest k v

/-- Modelled from the spec: `put` rejects keys longer than the
compile-time parameter `KEY_MAX` with `INVALID_ARGUMENT` (§4.3), otherwise
inserts (replacing any existing entry) and returns `OK` (§4.5). -/
def put (keyMax : Nat) (s : Store) (k : Key) (v : Value) : Status × Store :=
  if k.length > keyMax then (Status.INVALID_ARGUMENT, s)
  else (Status.OK, insertSorted s k v)

/-- Modelled from the spec: remove the entry with the given key from the
chain, leaving the store unchanged when the key is absent (§4.3 Remove). -/
def removeKey : Store → Key → Store
  | [], _ => []
  | (k', v') :: rest, k =>
    if cmpKey k k' = Ordering.eq then rest else (k', v') :: removeKey rest k

/-- Modelled from the spec: `remove` returns `OK` when the key was present
and `NOT_FOUND` otherwise (§4.3, §4.5). -/
def removeOp (s : Store) (k : Key) : Status × Store :=
  match getOp s k with
  | some _ => (Status.OK, removeKey s k)
  | none => (Status.NOT_FOUND, s)

/-- Modelled from the spec: `count_all` reports the tracked element count,
which equals the number of live entries reachable from the root (§3, §4.5). -/
def count_all (s : Store) : Nat := s.length

/-- Modelled from the spec: `between(k1, k2)` traverses the chain and
yields the entries strictly greater than `k1` and strictly less than `k2`
(both endpoints exclusive), returning a success status (§4.3 Range
operations). -/
def get_between (s : Store) (b1 b2 : Bound) : Status × Store :=
  (Status.OK, s.filter (fun e => boundLtKey b1 e.1 && keyLtBound e.1 b2))

/-- Modelled from the spec: `all` traverses the whole leaf chain in order
(§4.3 Range operations). -/
def get_all (s : Store) : Status × Store :=
  (Status.OK, s)

theorem keysOf_nil : keysOf [] = [] := rfl

theorem keysOf_cons (e : Key × Value) (s : Store) : keysOf (e :: s) = e.1 :: keysOf s := rfl

theorem storeInv_tail {e : Key × Value} {s : Store} (h : StoreInv (e :: s)) : StoreInv s :=
  (List.pairwise_cons.1 h).2

theorem storeInv_head {e : Key × Value} {s : Store} (h : StoreInv (e :: s)) :
    ∀ e2 ∈ s, cmpKey e.1 e2.1 = Ordering.lt :=
  (List.pairwise_cons.1 h).1

theorem keysOf_nodup {s : Store} (h : StoreInv s) : (keysOf s).Nodup := by
  have hp : List.Pairwise (fun k1 k2 : Key => cmpKey k1 k2 = Ordering.lt) (keysOf s) := by
    exact List.Pairwise.map Prod.fst (fun a b hab => hab) h
  exact hp.imp (fun hab => cmpKey_lt_ne hab)

theorem mem_keysOf_insertSorted {s : Store} {k x : Key} {v : Value} :
    x ∈ keysOf (insertSorted s k v) ↔ x = k ∨ x ∈ keysOf s := by
  induction s with
  | nil => simp [insertSorted, keysOf]
  | cons e rest ih =>
    obtain ⟨k', v'⟩ := e
    rcases hc : cmpKey k k' with hlt | heq | hgt
    · simp only [insertSorted, hc, keysOf, List.map_cons, List.mem_cons]
    · have hk : k = k' := cmpKey_eq_iff.1 hc
      subst hk
      simp [insertSorted, hc, keysOf]
    · simp only [insertSorted, hc, keysOf, List.map_cons, List.mem_cons] at ih ⊢
      rw [ih]
      tauto

theorem storeInv_insertSorted {s : Store} {k : Key} {v : Value} (h : StoreInv s) :
    StoreInv (insertSorted s k v) := by
  induction s with
  | nil => simp [insertSorted, StoreInv]
  | cons e rest ih =>
    obtain ⟨k', v'⟩ := e
    have hrest : StoreInv rest := storeInv_tail h
    have hhead := storeInv_head h
    rcases hc : cmpKey k k' with hlt | heq | hgt
    · unfold StoreInv
      simp only [insertSorted, hc]
      refine List.pairwise_cons.2 ⟨?_, h⟩
      intro e2 he2
      rcases List.mem_cons.1 he2 with he | he
      · subst he
        exact hc
      · exact cmpKey_lt_trans hc (hhead e2 he)
    · have hk : k = k' := cmpKey_eq_iff.1 hc
      subst hk
      unfold StoreInv
      simp only [insertSorted, hc]
      refine List.pairwise_cons.2 ⟨?_, hrest⟩
      intro e2 he2
      exact hhead e2 he2
    · unfold StoreInv
      simp only [insertSorted, hc]
      refine List.pairwise_cons.2 ⟨?_, ih hrest⟩
      intro e2 he2
      have hmem0 : e2.1 ∈ keysOf (insertSorted rest k v) :=
        List.mem_map_of_mem Prod.fst he2
      have hmem : e2.1 = k ∨ e2.1 ∈ keysOf rest := mem_keysOf_insertSorted.1 hmem0
      rcases hmem with he | he
      · rw [he]
        exact cmpKey_gt_iff.1 hc
      · obtain ⟨e3, he3, he3eq⟩ := List.mem_map.1 he
        have := hhead e3 he3
        rw [he3eq] at this
        exact this

theorem removeKey_sublist (s : Store) (k : Key) : (removeKey s k).Sublist s := by
  induction s with
  | nil => simp [removeKey]
  | cons e rest ih =>
    obtain ⟨k', v'⟩ := e
    by_cases hc : cmpKey k k' = Ordering.eq
    · simp only [removeKey, hc, if_true]
      exact List.sublist_cons_self (k', v') rest
    · simp only [removeKey, hc, if_false]
      exact List.Sublist.cons₂ (k', v') ih

theorem storeInv_removeKey {s : Store} (k : Key) (h : StoreInv s) :
    StoreInv (removeKey s k) :=
  h.sublist (removeKey_sublist s k)

theorem mem_keysOf_removeKey {s : Store} {k x : Key} (hnd : (keysOf s).Nodup) :
    x ∈ keysOf (removeKey s k) ↔ x ∈ keysOf s ∧ x ≠ k := by
  induction s with
  | nil => simp [removeKey, keysOf]
  | cons e rest ih =>
    obtain ⟨k', v'⟩ := e
    simp only [keysOf, List.map_cons, List.nodup_cons] at hnd
    by_cases hc : cmpKey k k' = Ordering.eq
    · have hk : k = k' := cmpKey_eq_iff.1 hc
      subst hk
      simp only [removeKey, cmpKey_refl, if_true, keysOf, List.map_cons, List.mem_cons]
      constructor
      · intro hx
        refine ⟨Or.inr hx, ?_⟩
        intro he
        subst he
        exact hnd.1 hx
      · intro ⟨hx, hne⟩
        rcases hx with he | hx
        · exact absurd he hne
        · exact hx
    · have hk : k ≠ k' := fun he => hc (cmpKey_eq_iff.2 he)
      simp only [removeKey, hc, if_false, keysOf_cons, List.mem_cons]
      rw [ih hnd.2]
      constructor
      · intro hx
        rcases hx with he | ⟨hx, hne⟩
        · exact ⟨Or.inl he, by rw [he]; exact fun h2 => hk h2.symm⟩
        · exact ⟨Or.inr hx, hne⟩
      · intro ⟨hx, hne⟩
        rcases hx with he | hx
        · exact Or.inl he
        · exact Or.inr ⟨hx, hne⟩

theorem getOp_insertSorted_self (s : Store) (k : Key) (v : Value) :
    getOp (insertSorted s k v) k = some v := by
  induction s with
  | nil => simp [insertSorted, getOp, cmpKey_refl]
  | cons e rest ih =>
    obtain ⟨k', v'⟩ := e
    rcases hc : cmpKey k k' with hlt | heq | hgt
    · simp [insertSorted, hc, getOp, cmpKey_refl]
    · simp [insertSorted, hc, getOp, cmpKey_refl]
    · have hne : cmpKey k k' ≠ Ordering.eq := by
        rw [hc]
        simp
      simp [insertSorted, hc, getOp, hne, ih]

theorem getOp_mem_keysOf {s : Store} {k : Key} {v : Value} (h : getOp s k = some v) :
    k ∈ keysOf s := by
  induction s with
  | nil => simp [getOp] at h
  | cons e rest ih =>
    obtain ⟨k', v'⟩ := e
    by_cases hc : cmpKey k k' = Ordering.eq
    · have hk : k = k' := cmpKey_eq_iff.1 hc
      subst hk
      simp [keysOf]
    · simp only [getOp, hc, if_false] at h
      simp only [keysOf, List.map_cons, List.mem_cons]
      exact Or.inr (ih h)

theorem mem_keysOf_getOp_isSome {s : Store} {k : Key} (h : k ∈ keysOf s) :
    (getOp s k).isSome = true := by
  induction s with
  | nil => simp [keysOf] at h
  | cons e rest ih =>
    obtain ⟨k', v'⟩ := e
    by_cases hc : cmpKey k k' = Ordering.eq
    · simp [getOp, hc]
    · have hk : k ≠ k' := fun he => hc (cmpKey_eq_iff.2 he)
      simp only [keysOf, List.map_cons, List.mem_cons] at h
      rcases h with he | h
      · exact absurd he hk
      · simp only [getOp, hc, if_false]
        exact ih h

theorem getOp_none_removeKey {s : Store} {k : Key} (h : getOp s k = none) :
    removeKey s k = s := by
  induction s with
  | nil => rfl
  | cons e rest ih =>
    obtain ⟨k', v'⟩ := e
    by_cases hc : cmpKey k k' = Ordering.eq
    · simp [getOp, hc] at h
    · simp only [getOp, hc, if_false] at h
      simp [removeKey, hc, ih h]

theorem removeOp_snd (s : Store) (k : Key) : (removeOp s k).2 = removeKey s k := by
  unfold removeOp
  cases h : getOp s k with
  | none => simp [getOp_none_removeKey h]
  | some v => rfl

theorem put_snd (keyMax : Nat) (s : Store) (k : Key) (v : Value) :
    (put keyMax s k v).2 = if k.length > keyMax then s else insertSorted s k v := by
  unfold put
  split <;> rfl

theorem length_insertSorted_of_mem {s : Store} {k : Key} (v : Value) (hInv : StoreInv s)
    (hmem : k ∈ keysOf s) : (insertSorted s k v).length = s.length := by
  induction s with
  | nil => simp [keysOf] at hmem
  | cons e rest ih =>
    obtain ⟨k', v'⟩ := e
    have hrest : StoreInv rest := storeInv_tail hInv
    have hhead := storeInv_head hInv
    simp only [keysOf, List.map_cons, List.mem_cons] at hmem
    rcases hc : cmpKey k k' with hlt | heq | hgt
    · exfalso
      rcases hmem with he | hmem
      · exact cmpKey_lt_ne hc he
      · obtain ⟨e3, he3, he3eq⟩ := List.mem_map.1 hmem
        have h1 : cmpKey k' k = Ordering.lt := by
          have := hhead e3 he3
          rw [he3eq] at this
          exact this
        exact cmpKey_lt_irrefl k (cmpKey_lt_trans hc h1)
    · simp [insertSorted, hc]
    · have hk : k ≠ k' := fun he => by
        rw [he, cmpKey_refl] at hc
        exact absurd hc (by simp)
      have hmem2 : k ∈ keysOf rest := by
        rcases hmem with he | h
        · exact absurd he hk
        · exact h
      simp only [insertSorted, hc, List.length_cons]
      rw [ih hrest hmem2]

/-- A mutating operation of the public surface: `put` or `remove` (§4.5). -/
inductive Op where
  | put (k : Key) (v : Value)
  | remove (k : Key)
deriving DecidableEq, Repr

/-- Modelled from the spec: running a sequence of `put`/`remove` operations
against the store, each applied as §4.3 describes. -/
def runOps (keyMax : Nat) : List Op → Store → Store
  | [], s => s
  | Op.put k v :: rest, s => runOps keyMax rest (put keyMax s k v).2
  | Op.remove k :: rest, s => runOps keyMax rest (removeOp s k).2

/-- Whether a key is live after running the operations, starting from
liveness `b`: the last successful `put`/`remove` touching the key decides
(a `put` of an oversize key fails with `INVALID_ARGUMENT` and does not make
the key live, §4.3). -/
def liveFold (keyMax : Nat) : List Op → Key → Bool → Bool
  | [], _, b => b
  | Op.put k' _ :: rest, k, b =>
    liveFold keyMax rest k (if k' = k ∧ k'.length ≤ keyMax then true else b)
  | Op.remove k' :: rest, k, b =>
    liveFold keyMax rest k (if k' = k then false else b)

/-- A key is live after a sequence of operations run against an empty
store when its last successful operation was a `put`. -/
def liveAfter (keyMax : Nat) (ops : List Op) (k : Key) : Bool :=
  liveFold keyMax ops k false

/-- The keys appearing in `put` operations of the sequence, in order. -/
def insertedKeys : List Op → List Key
  | [] => []
  | Op.put k _ :: rest => k :: insertedKeys rest
  | Op.remove _ :: rest => insertedKeys rest

theorem storeInv_runOps (keyMax : Nat) (ops : List Op) {s : Store} (h : StoreInv s) :
    StoreInv (runOps keyMax ops s) := by
  induction ops generalizing s with
  | nil => exact h
  | cons op rest ih =>
    cases op with
    | put k v =>
      simp only [runOps]
      refine ih ?_
      rw [put_snd]
      split
      · exact h
      · exact storeInv_insertSorted h
    | remove k =>
      simp only [runOps]
      refine ih ?_
      rw [removeOp_snd]
      exact storeInv_removeKey k h

theorem mem_keysOf_runOps (keyMax : Nat) (ops : List Op) {s : Store} (hInv : StoreInv s)
    (k : Key) :
    (k ∈ keysOf (runOps keyMax ops s)) ↔
      liveFold keyMax ops k (decide (k ∈ keysOf s)) = true := by
  induction ops generalizing s with
  | nil => simp [runOps, liveFold]
  | cons op rest ih =>
    cases op with
    | put k' v =>
      simp only [runOps, liveFold]
      have hInv2 : StoreInv (put keyMax s k' v).2 := by
        rw [put_snd]
        split
        · exact hInv
        · exact storeInv_insertSorted hInv
      rw [ih hInv2]
      have harg : decide (k ∈ keysOf (put keyMax s k' v).2) =
          (if k' = k ∧ k'.length ≤ keyMax then true else decide (k ∈ keysOf s)) := by
        rw [put_snd]
        by_cases hlen : k'.length ≤ keyMax
        · have hgt : ¬k'.length > keyMax := by omega
          simp only [hgt, if_false]
          by_cases hk : k' = k
          · subst hk
            simp [hlen, mem_keysOf_insertSorted]
          · have hcond : ¬(k' = k ∧ k'.length ≤ keyMax) := fun hh => hk hh.1
            simp only [hcond, if_false]
            have : k ∈ keysOf (insertSorted s k' v) ↔ k ∈ keysOf s := by
              rw [mem_keysOf_insertSorted]
              constructor
              · intro hh
                rcases hh with he | hh
                · exact absurd he.symm hk
                · exact hh
              · exact Or.inr
            simp [this]
        · have hgt : k'.length > keyMax := by omega
          have hcond : ¬(k' = k ∧ k'.length ≤ keyMax) := fun hh => hlen hh.2
          simp [hgt, hcond]
      rw [harg]
    | remove k' =>
      simp only [runOps, liveFold]
      have hInv2 : StoreInv (removeOp s k').2 := by
        rw [removeOp_snd]
        exact storeInv_removeKey k' hInv
      rw [ih hInv2]
      have harg : decide (k ∈ keysOf (removeOp s k').2) =
          (if k' = k then false else decide (k ∈ keysOf s)) := by
        rw [removeOp_snd]
        have hmem := mem_keysOf_removeKey (s := s) (k := k') (x := k) (keysOf_nodup hInv)
        by_cases hk : k' = k
        · subst hk
          simp only [if_pos rfl]
          have hnm : k' ∉ keysOf (removeKey s k') := fun hh => (hmem.1 hh).2 rfl
          simp [hnm]
        · simp only [hk, if_false]
          have : k ∈ keysOf (removeKey s k') ↔ k ∈ keysOf s := by
            rw [hmem]
            constructor
            · exact fun hh => hh.1
            · intro hh
              exact ⟨hh, fun he => hk he.symm⟩
          simp [this]
      rw [harg]

theorem liveFold_true_mem (keyMax : Nat) (ops : List Op) (k : Key) (b : Bool)
    (h : liveFold keyMax ops k b = true) : b = true ∨ k ∈ insertedKeys ops := by
  induction ops generalizing b with
  | nil => exact Or.inl h
  | cons op rest ih =>
    cases op with
    | put k' v =>
      simp only [liveFold] at h
      rcases ih _ h with hb | hmem
      · by_cases hcond : k' = k ∧ k'.length ≤ keyMax
        · simp only [insertedKeys, List.mem_cons]
          exact Or.inr (Or.inl hcond.1.symm)
        · simp only [hcond, if_false] at hb
          exact Or.inl hb
      · simp only [insertedKeys, List.mem_cons]
        exact Or.inr (Or.inr hmem)
    | remove k' =>
      simp only [liveFold] at h
      rcases ih _ h with hb | hmem
      · by_cases hcond : k' = k
        · simp only [hcond, if_pos rfl] at hb
          exact absurd hb (by simp)
        · simp only [hcond, if_false] at hb
          exact Or.inl hb
      · simp only [insertedKeys]
        exact Or.inr hmem

/-- Status-code constants of the C header, as returned by `libpmemkv.cc`
(stable ordinals, §6 of the spec). -/
def PMEMKV_STATUS_OK : Int := 0

/-- The `NOT_FOUND` ordinal of the C header. -/
def PMEMKV_STATUS_NOT_FOUND : Int := 2

/-- The `INVALID_ARGUMENT` ordinal of the C header. -/
def PMEMKV_STATUS_INVALID_ARGUMENT : Int := 4

/-- The `OUT_OF_MEMORY` ordinal of the C header. -/
def PMEMKV_STATUS_OUT_OF_MEMORY : Int := 8

/-- The `FAILED` ordinal of the C header. -/
def PMEMKV_STATUS_FAILED : Int := 12

/-- An exception escaping the internal core at the public C boundary, as
distinguished by the ordered catch clauses of `catch_and_return_status` in
`libpmemkv.cc`: `pmem::kv::internal::error` (carrying a status code),
`std::bad_alloc`, `std::runtime_error`, and anything else (which the final
`catch (...)` clause receives). -/
inductive CppException where
  | internalError (what : String) (code : Int)
  | badAlloc (what : String)
  | runtimeError (what : String)
  | otherException (what : String)
  | nonStd
deriving DecidableEq, Repr

/-- Embedded from `libpmemkv.cc` `catch_and_return_status`: runs the body
(`Except.ok` is a normal return of a status int, `Except.error` a thrown
exception) and translates each exception to a status int, writing the
diagnostic message (`out_err_stream`) on every catch path.  Returns
(status, diagnostic written). -/
def catch_and_return_status : Except CppException Int → Int × Option String
  | Except.ok v => (v, none)
  | Except.error (CppException.internalError w c) => (c, some w)
  | Except.error (CppException.badAlloc w) => (PMEMKV_STATUS_OUT_OF_MEMORY, some w)
  | Except.error (CppException.runtimeError w) => (PMEMKV_STATUS_FAILED, some w)
  | Except.error (CppException.otherException _) =>
    (PMEMKV_STATUS_FAILED, some "Unspecified error")
  | Except.error CppException.nonStd => (PMEMKV_STATUS_FAILED, some "Unspecified error")

/-- Embedded from `libpmemkv.cc` `pmemkv_open`: `enabled` is the
compile-time set of engine names (the `#ifdef`-selected branches plus the
unconditional `blackhole`); `db` is `none` when the caller passed a null
out-pointer and `some prev` otherwise.  Returns (status, diagnostic,
out-pointer content after the call; `some none` means `*db == nullptr`).
A name outside `enabled` reaches `throw std::runtime_error("Unknown engine
name")`, whose handler writes the diagnostic, nulls `*db` and returns
`PMEMKV_STATUS_FAILED`. -/
def pmemkv_open (enabled : List String) (engine : String) (db : Option (Option String)) :
    Int × Option String × Option (Option String) :=
  match db with
  | none => (PMEMKV_STATUS_INVALID_ARGUMENT, none, none)
  | some _ =>
    if engine ∈ enabled then (PMEMKV_STATUS_OK, none, some (some engine))
    else (PMEMKV_STATUS_FAILED, some "Unknown engine name", some none)

/-- Embedded from `libpmemkv.cc` `pmemkv_get_copy` together with its
`get_copy_callback`: the caller's buffer is `buf0` (`none` when null),
sized `bufSize`; `wantSize` says whether the `value_size` out-pointer is
non-null.  A non-null buffer is first zeroed; the engine lookup is `getOp`;
the callback records the value length, then either copies (value shorter
than the buffer) or fails.  Returns (status, final buffer contents, value
size written). -/
def pmemkv_get_copy (s : Store) (k : Key) (buf0 : Option (List Nat)) (bufSize : Nat)
    (wantSize : Bool) : Int × Option (List Nat) × Option Nat :=
  let zeroed := buf0.map (fun _ => List.replicate bufSize 0)
  match getOp s k with
  | none => (PMEMKV_STATUS_NOT_FOUND, zeroed, none)
  | some v =>
    if v.length < bufSize then
      (PMEMKV_STATUS_OK, zeroed.map (fun z => v ++ z.drop v.length),
       if wantSize then some v.length else none)
    else
      (PMEMKV_STATUS_FAILED, zeroed, if wantSize then some v.length else none)

/-- Modelled from the spec: a pool holding the persisted comparator name
in its header (written once on first open) and the durable store contents
(§3 Root pointer, §4.2). -/
structure Pool where
  cmpName : String
  contents : Store
deriving DecidableEq, Repr

/-- Modelled from the spec: reopening an existing pool compares the
supplied comparator's `name()` to the persisted name; a mismatch fails
the open with `COMPARATOR_MISMATCH` and a diagnostic naming the expected
comparator, leaving the pool untouched (§4.2, §8 invariant 8).  Returns
(status, diagnostic, pool after the call). -/
def openExisting (p : Pool) (suppliedCmpName : String) : Status × Option String × Pool :=
  if suppliedCmpName = p.cmpName then (Status.OK, none, p)
  else
    (Status.COMPARATOR_MISMATCH,
     some ("Comparator with name: \"" ++ p.cmpName ++ "\" expected"), p)

/-- Claim C1: for every store state and all keys `k1 < k2` under the active
comparator, `get_between(k1, k2)` yields exactly the entries whose keys `x`
satisfy `k1 < x < k2` (both endpoints exclusive), in comparator-ascending
order, without duplicates. -/
theorem C1_get_between_exact (s : Store) (hInv : StoreInv s) (k1 k2 : Key)
    (_hlt : cmpKey k1 k2 = Ordering.lt) :
    (∀ e : Key × Value, e ∈ (get_between s (Bound.key k1) (Bound.key k2)).2 ↔
      e ∈ s ∧ cmpKey k1 e.1 = Ordering.lt ∧ cmpKey e.1 k2 = Ordering.lt) ∧
    List.Pairwise (fun e1 e2 : Key × Value => cmpKey e1.1 e2.1 = Ordering.lt)
      (get_between s (Bound.key k1) (Bound.key k2)).2 ∧
    (keysOf (get_between s (Bound.key k1) (Bound.key k2)).2).Nodup := by
  have hsub : ((get_between s (Bound.key k1) (Bound.key k2)).2).Sublist s := by
    simp only [get_between]
    exact List.filter_sublist s
  have hpair : List.Pairwise (fun e1 e2 : Key × Value => cmpKey e1.1 e2.1 = Ordering.lt)
      (get_between s (Bound.key k1) (Bound.key k2)).2 :=
    List.Pairwise.sublist hsub hInv
  refine ⟨?_, hpair, keysOf_nodup hpair⟩
  intro e
  simp [get_between, List.mem_filter, boundLtKey, keyLtBound, and_assoc]

/-- Witness for C1 at the store [("A","1"), ("AB","2")] with range
("A", "B"), matching the basic get_between test. -/
theorem C1_get_between_exact_witness :
    StoreInv [([65], [49]), ([65, 66], [50])] ∧
    cmpKey [65] [66] = Ordering.lt ∧
    ((∀ e : Key × Value,
        e ∈ (get_between [([65], [49]), ([65, 66], [50])]
              (Bound.key [65]) (Bound.key [66])).2 ↔
        e ∈ [([65], [49]), ([65, 66], [50])] ∧
          cmpKey [65] e.1 = Ordering.lt ∧ cmpKey e.1 [66] = Ordering.lt) ∧
      List.Pairwise (fun e1 e2 : Key × Value => cmpKey e1.1 e2.1 = Ordering.lt)
        (get_between [([65], [49]), ([65, 66], [50])]
          (Bound.key [65]) (Bound.key [66])).2 ∧
      (keysOf (get_between [([65], [49]), ([65, 66], [50])]
          (Bound.key [65]) (Bound.key [66])).2).Nodup) :=
  ⟨by decide, by decide,
    C1_get_between_exact [([65], [49]), ([65, 66], [50])] (by decide) [65] [66] (by decide)⟩

/-- Claim C2: for every key `k` and value `v`, immediately after a
`put(k, v)` that returns `OK`, `exists(k)` returns `OK` and `get(k)`
delivers exactly `v`. -/
theorem C2_put_then_get (keyMax : Nat) (s : Store) (k : Key) (v : Value)
    (hOK : (put keyMax s k v).1 = Status.OK) :
    existsKey (put keyMax s k v).2 k = Status.OK ∧
    getOp (put keyMax s k v).2 k = some v := by
  by_cases hlen : k.length > keyMax
  · simp [put, hlen] at hOK
  · have h2 : (put keyMax s k v).2 = insertSorted s k v := by simp [put, hlen]
    rw [h2]
    have hg := getOp_insertSorted_self s k v
    refine ⟨?_, hg⟩
    simp [existsKey, hg]

/-- Witness for C2 at the empty store with put("key1", "value1"),
matching the SimpleTest scenario. -/
theorem C2_put_then_get_witness :
    (put 20 [] [107, 101, 121, 49] [118, 97, 108, 49]).1 = Status.OK ∧
    (existsKey (put 20 [] [107, 101, 121, 49] [118, 97, 108, 49]).2
        [107, 101, 121, 49] = Status.OK ∧
      getOp (put 20 [] [107, 101, 121, 49] [118, 97, 108, 49]).2
        [107, 101, 121, 49] = some [118, 97, 108, 49]) :=
  ⟨by decide, C2_put_then_get 20 [] [107, 101, 121, 49] [118, 97, 108, 49] (by decide)⟩

/-- Claim C3: for every sequence of put/remove operations with arbitrary
keys, at every quiescent point the count reported by `count_all` equals
the number of distinct keys inserted whose entries are still live minus
those removed (i.e. the number of distinct keys whose last successful
operation was a put). -/
theorem C3_count_all_live (keyMax : Nat) (ops : List Op) :
    count_all (runOps keyMax ops []) =
      ((insertedKeys ops).dedup.filter (fun k => liveAfter keyMax ops k)).length := by
  have hInv0 : StoreInv ([] : Store) := List.Pairwise.nil
  have hInv : StoreInv (runOps keyMax ops []) := storeInv_runOps keyMax ops hInv0
  have hnd : (keysOf (runOps keyMax ops [])).Nodup := keysOf_nodup hInv
  have hmem : ∀ k : Key, k ∈ keysOf (runOps keyMax ops []) ↔
      liveAfter keyMax ops k = true := by
    intro k
    have h := mem_keysOf_runOps keyMax ops hInv0 k
    simpa [keysOf, liveAfter] using h
  have hndL : ((insertedKeys ops).dedup.filter (fun k => liveAfter keyMax ops k)).Nodup :=
    List.Nodup.filter _ (List.nodup_dedup _)
  have hiff : ∀ k : Key, k ∈ keysOf (runOps keyMax ops []) ↔
      k ∈ (insertedKeys ops).dedup.filter (fun k => liveAfter keyMax ops k) := by
    intro k
    rw [hmem k]
    simp only [List.mem_filter, List.mem_dedup]
    constructor
    · intro hl
      refine ⟨?_, hl⟩
      rcases liveFold_true_mem keyMax ops k false hl with hb | hm
      · exact absurd hb (by simp)
      · exact hm
    · exact fun hh => hh.2
  have hperm : (keysOf (runOps keyMax ops [])).Perm
      ((insertedKeys ops).dedup.filter (fun k => liveAfter keyMax ops k)) :=
    (List.perm_ext_iff_of_nodup hnd hndL).2 hiff
  calc count_all (runOps keyMax ops [])
      = (keysOf (runOps keyMax ops [])).length := (List.length_map _ _).symm
    _ = _ := hperm.length_eq

/-- Claim C4: reopening a pool while supplying a comparator whose name
differs from the persisted name fails the open with COMPARATOR_MISMATCH,
sets a diagnostic message naming the expected comparator, and does not
alter the pool's durable contents. -/
theorem C4_comparator_mismatch (p : Pool) (n : String) (h : n ≠ p.cmpName) :
    (openExisting p n).1 = Status.COMPARATOR_MISMATCH ∧
    (∃ pre post : String, (openExisting p n).2.1 = some (pre ++ p.cmpName ++ post)) ∧
    (openExisting p n).2.2 = p := by
  have hif : openExisting p n =
      (Status.COMPARATOR_MISMATCH,
       some ("Comparator with name: \"" ++ p.cmpName ++ "\" expected"), p) := by
    simp [openExisting, h]
  rw [hif]
  exact ⟨rfl, ⟨"Comparator with name: \"", "\" expected", rfl⟩, rfl⟩

/-- Witness for C4: a pool persisted with the default comparator name,
reopened with the comparator named "invalid_cmp" of the reopen test. -/
theorem C4_comparator_mismatch_witness :
    "invalid_cmp" ≠ (Pool.mk pmemkv_binary_comparator_name [([65], [65])]).cmpName ∧
    ((openExisting (Pool.mk pmemkv_binary_comparator_name [([65], [65])])
        "invalid_cmp").1 = Status.COMPARATOR_MISMATCH ∧
      (∃ pre post : String,
        (openExisting (Pool.mk pmemkv_binary_comparator_name [([65], [65])])
            "invalid_cmp").2.1 =
          some (pre ++ (Pool.mk pmemkv_binary_comparator_name [([65], [65])]).cmpName
            ++ post)) ∧
      (openExisting (Pool.mk pmemkv_binary_comparator_name [([65], [65])])
          "invalid_cmp").2.2 =
        Pool.mk pmemkv_binary_comparator_name [([65], [65])]) :=
  ⟨by decide,
    C4_comparator_mismatch (Pool.mk pmemkv_binary_comparator_name [([65], [65])])
      "invalid_cmp" (by decide)⟩

/-- Claim C5: for every key `k` already present in the store, a second
`put(k, v')` returns `OK`, replaces the stored value with `v'`, and leaves
`count_all` unchanged. -/
theorem C5_replacing_put (keyMax : Nat) (s : Store) (k : Key) (v v0 : Value)
    (hInv : StoreInv s) (hlen : k.length ≤ keyMax) (hget : getOp s k = some v0) :
    (put keyMax s k v).1 = Status.OK ∧
    getOp (put keyMax s k v).2 k = some v ∧
    count_all (put keyMax s k v).2 = count_all s := by
  have hgt : ¬k.length > keyMax := by omega
  have h1 : (put keyMax s k v).1 = Status.OK := by simp [put, hgt]
  have h2 : (put keyMax s k v).2 = insertSorted s k v := by simp [put, hgt]
  refine ⟨h1, ?_, ?_⟩
  · rw [h2]
    exact getOp_insertSorted_self s k v
  · rw [h2]
    exact length_insertSorted_of_mem v hInv (getOp_mem_keysOf hget)

/-- Witness for C5: the store holding ("key1", "value1") updated by
put("key1", "VALUE1"), matching the PutTest scenario. -/
theorem C5_replacing_put_witness :
    StoreInv [([107, 101, 121, 49], [118, 97, 108, 49])] ∧
    ([107, 101, 121, 49] : Key).length ≤ 20 ∧
    getOp [([107, 101, 121, 49], [118, 97, 108, 49])] [107, 101, 121, 49] =
      some [118, 97, 108, 49] ∧
    ((put 20 [([107, 101, 121, 49], [118, 97, 108, 49])] [107, 101, 121, 49]
        [86, 65, 76, 49]).1 = Status.OK ∧
      getOp (put 20 [([107, 101, 121, 49], [118, 97, 108, 49])] [107, 101, 121, 49]
          [86, 65, 76, 49]).2 [107, 101, 121, 49] = some [86, 65, 76, 49] ∧
      count_all (put 20 [([107, 101, 121, 49], [118, 97, 108, 49])] [107, 101, 121, 49]
          [86, 65, 76, 49]).2 =
        count_all [([107, 101, 121, 49], [118, 97, 108, 49])]) :=
  ⟨by decide, by decide, by decide,
    C5_replacing_put 20 [([107, 101, 121, 49], [118, 97, 108, 49])] [107, 101, 121, 49]
      [86, 65, 76, 49] [118, 97, 108, 49] (by decide) (by decide) (by decide)⟩

/-- Claim C6: for every store state and all keys `k1, k2` with
`compare(k1, k2) ≥ 0` under the active comparator, `get_between(k1, k2)`
delivers no entries and returns a success status, not an error. -/
theorem C6_degenerate_range_empty (s : Store) (k1 k2 : Key)
    (hge : cmpKey k1 k2 ≠ Ordering.lt) :
    get_between s (Bound.key k1) (Bound.key k2) = (Status.OK, []) := by
  simp only [get_between, Prod.mk.injEq, true_and]
  rw [List.filter_eq_nil_iff]
  intro e _
  simp only [boundLtKey, keyLtBound, Bool.and_eq_true, decide_eq_true_eq, not_and]
  intro h1 h2
  exact hge (cmpKey_lt_trans h1 h2)

/-- Witness for C6: the reversed range ("BA", "A") over the store holding
("B", "4"), matching the wrong-range checks of the get_between test. -/
theorem C6_degenerate_range_empty_witness :
    cmpKey [66, 65] [65] ≠ Ordering.lt ∧
    get_between [([66], [52])] (Bound.key [66, 65]) (Bound.key [65]) =
      (Status.OK, []) :=
  ⟨by decide, C6_degenerate_range_empty [([66], [52])] [66, 65] [65] (by decide)⟩

/-- Claim C7: iterating all entries (`get_all`) is equivalent to
`between(MIN_KEY, MAX_KEY)`: it visits every live entry exactly once in
comparator-ascending order, which under the default comparator is
lexicographic (unsigned) byte order. -/
theorem C7_all_eq_between_sentinels (s : Store) (hInv : StoreInv s) :
    get_all s = get_between s Bound.min Bound.max ∧
    (∀ e : Key × Value, e ∈ (get_all s).2 ↔ e ∈ s) ∧
    List.Pairwise
      (fun e1 e2 : Key × Value => List.Lex (fun x y : Nat => x < y) e1.1 e2.1)
      (get_all s).2 ∧
    (keysOf (get_all s).2).Nodup := by
  refine ⟨?_, ?_, ?_, ?_⟩
  · simp [get_all, get_between, boundLtKey, keyLtBound]
  · intro e
    simp [get_all]
  · exact hInv.imp (fun hab => cmpKey_lt_iff_lex.1 hab)
  · exact keysOf_nodup hInv

/-- Witness for C7 at the store produced by the UsesAllTest scenario:
entries ("2", "1") and ("记!", "RR") in byte order. -/
theorem C7_all_eq_between_sentinels_witness :
    StoreInv [([50], [49]), ([232, 174, 176, 33], [82, 82])] ∧
    (get_all [([50], [49]), ([232, 174, 176, 33], [82, 82])] =
        get_between [([50], [49]), ([232, 174, 176, 33], [82, 82])]
          Bound.min Bound.max ∧
      (∀ e : Key × Value,
        e ∈ (get_all [([50], [49]), ([232, 174, 176, 33], [82, 82])]).2 ↔
          e ∈ [([50], [49]), ([232, 174, 176, 33], [82, 82])]) ∧
      List.Pairwise
        (fun e1 e2 : Key × Value => List.Lex (fun x y : Nat => x < y) e1.1 e2.1)
        (get_all [([50], [49]), ([232, 174, 176, 33], [82, 82])]).2 ∧
      (keysOf (get_all [([50], [49]), ([232, 174, 176, 33], [82, 82])]).2).Nodup) :=
  ⟨by decide,
    C7_all_eq_between_sentinels [([50], [49]), ([232, 174, 176, 33], [82, 82])]
      (by decide)⟩

/-- Claim C8: for every public API call, internal exceptions never escape
to the caller: an internal error exception is mapped to its carried status
code, `std::bad_alloc` to `OUT_OF_MEMORY`, and any other exception to
`FAILED`, with the diagnostic message populated on each failure path. -/
theorem C8_exceptions_never_escape (e : CppException) :
    (catch_and_return_status (Except.error e)).2.isSome = true ∧
    (catch_and_return_status (Except.error e)).1 =
      (match e with
       | CppException.internalError _ c => c
       | CppException.badAlloc _ => PMEMKV_STATUS_OUT_OF_MEMORY
       | _ => PMEMKV_STATUS_FAILED) := by
  cases e <;> simp [catch_and_return_status]

/-- Claim C9: for every engine name not in the compile-time set of known
engines, `pmemkv_open` returns `FAILED`, sets a diagnostic message, and
leaves the out-parameter `*db` set to null. -/
theorem C9_unknown_engine (enabled : List String) (engine : String)
    (prev : Option String) (h : engine ∉ enabled) :
    pmemkv_open enabled engine (some prev) =
      (PMEMKV_STATUS_FAILED, some "Unknown engine name", some none) := by
  simp [pmemkv_open, h]

/-- Witness for C9: opening the engine name "does_not_exist" against a
build with the blackhole and stree engines compiled in. -/
theorem C9_unknown_engine_witness :
    "does_not_exist" ∉ ["blackhole", "stree"] ∧
    pmemkv_open ["blackhole", "stree"] "does_not_exist" (some none) =
      (PMEMKV_STATUS_FAILED, some "Unknown engine name", some none) :=
  ⟨by decide, C9_unknown_engine ["blackhole", "stree"] "does_not_exist" none (by decide)⟩

/-- Claim C10: for every key and caller buffer, `pmemkv_get_copy` first
zeroes the (non-null) buffer, returns `NOT_FOUND` if the key is absent,
returns `OK` and copies the value only when the value's length is strictly
below the buffer size, returns `FAILED` without copying when the value's
length equals or exceeds the buffer size, and in both found cases writes
the value's length through a non-null `value_size` pointer. -/
theorem C10_get_copy_cases (s : Store) (k : Key) (buf0 : Option (List Nat))
    (bufSize : Nat) (wantSize : Bool) :
    (getOp s k = none →
      pmemkv_get_copy s k buf0 bufSize wantSize =
        (PMEMKV_STATUS_NOT_FOUND, buf0.map (fun _ => List.replicate bufSize 0), none)) ∧
    (∀ v : Value, getOp s k = some v → v.length < bufSize →
      pmemkv_get_copy s k buf0 bufSize wantSize =
        (PMEMKV_STATUS_OK,
         buf0.map (fun _ => v ++ List.replicate (bufSize - v.length) 0),
         if wantSize then some v.length else none)) ∧
    (∀ v : Value, getOp s k = some v → bufSize ≤ v.length →
      pmemkv_get_copy s k buf0 bufSize wantSize =
        (PMEMKV_STATUS_FAILED, buf0.map (fun _ => List.replicate bufSize 0),
         if wantSize then some v.length else none)) := by
  refine ⟨?_, ?_, ?_⟩
  · intro h
    simp [pmemkv_get_copy, h]
  · intro v h hfit
    cases buf0 with
    | none => simp [pmemkv_get_copy, h, hfit]
    | some b => simp [pmemkv_get_copy, h, hfit, List.drop_replicate]
  · intro v h hbig
    have hnfit : ¬v.length < bufSize := by omega
    simp [pmemkv_get_copy, h, hnfit]

/-- Witness for C10: copying the two-byte value of key [1] into a non-null
four-byte buffer with a non-null value_size pointer. -/
theorem C10_get_copy_cases_witness :
    getOp [([1], [5, 6])] [1] = some [5, 6] ∧
    ([5, 6] : Value).length < 4 ∧
    pmemkv_get_copy [([1], [5, 6])] [1] (some [9, 9, 9, 9]) 4 true =
      (PMEMKV_STATUS_OK, some [5, 6, 0, 0], some 2) := by
  refine ⟨by decide, by decide, ?_⟩
  have h := (C10_get_copy_cases [([1], [5, 6])] [1] (some [9, 9, 9, 9]) 4 true).2.1
    [5, 6] (by decide) (by decide)
  rw [h]
  decide
